import Mathlib

/-!
A shallow embedding of the `msite` Rust crate (file `src/lib.rs`): the
`MSite` record type, its line parser `MSite::build`, the `Display`
implementation, the derived statistics `n_meth`/`n_umeth`, the context
predicates, `is_mate_of`, `add`, the mutation marker and the derived
ordering.

Modelling conventions:
* Byte strings (`Vec<u8>` holding UTF-8 text, and `&str` slices) are
  modelled as `List Char`.  For every operation the source performs on
  those bytes (prefix tests against ASCII bytes, last-byte test, UTF-8
  lexicographic comparison, whitespace splitting of decoded text) the
  byte-level and the codepoint-level formulations agree, because ASCII
  bytes never occur inside a multi-byte UTF-8 sequence and UTF-8
  preserves codepoint order.
* `u64` values are modelled as `Nat`; where the source can overflow
  (`self.n_reads += other.n_reads`, `self.pos + 1`) the result is taken
  modulo `2 ^ 64`, the release-mode (wrapping) semantics of Rust.
* `f64` values are modelled by `F64`: NaN, two infinities, or an exact
  rational.  The `u64` to `f64` conversion in `n_meth` is modelled with
  its real round-to-nearest-ties-to-even behaviour (`rne53`), since it
  is observable for read counts above `2^53`.  IEEE-754 rounding of the
  remaining arithmetic (the meth quotient in `add`, the display
  quantization product) is below the resolution of this model; the
  values it handles (methylation levels quantized to 6 decimal digits)
  are far inside the range where the modelled results agree with the
  binary ones.  The two IEEE zeros are conflated.
* Rust panics (every `.unwrap()` in `MSite::build`, and `Ord::cmp`
  calling `.unwrap()` on `partial_cmp`) are modelled as explicit
  outcomes: constructor `BRes.panicked` for `build`, and `none` for the
  partial comparison that `cmp` unwraps.
-/

/-- Unicode `White_Space` test, as Rust's `char::is_whitespace` used by
`str::split_whitespace`. -/
def isWsC (c : Char) : Bool :=
  let n := c.toNat
  (9 ≤ n && n ≤ 13) || n = 32 || n = 0x85 || n = 0xA0 || n = 0x1680 ||
    (0x2000 ≤ n && n ≤ 0x200A) || n = 0x2028 || n = 0x2029 ||
    n = 0x202F || n = 0x205F || n = 0x3000

/-- ASCII digit test (as used by Rust's integer and float parsers). -/
def isDigitC (c : Char) : Bool :=
  48 ≤ c.toNat && c.toNat ≤ 57

/-- ASCII lower-casing, for the case-insensitive `inf`/`nan` forms of
Rust's `f64` parser. -/
def lowerC (c : Char) : Char :=
  if 65 ≤ c.toNat && c.toNat ≤ 90 then Char.ofNat (c.toNat + 32) else c

/-- Numeric value of a digit character. -/
def digitVal (c : Char) : Nat := c.toNat - 48

/-- Value of a big-endian list of digit characters (the accumulator loop
of Rust's integer parsers). -/
def digitsVal (l : List Char) : Nat :=
  l.foldl (fun a c => a * 10 + digitVal c) 0

/-- `2 ^ 64`, the modulus of `u64` arithmetic. -/
def U64MOD : Nat := 18446744073709551616

/-- `str::parse::<u64>`: an optional `+` sign, then one or more ASCII
digits, and the value must fit in `u64` (overflow is a parse error). -/
def parseU64 (t : List Char) : Option Nat :=
  let r := match t with
    | '+' :: r => r
    | _ => t
  if !r.isEmpty && r.all isDigitC then
    let v := digitsVal r
    if v < U64MOD then some v else none
  else none

/-- `str::parse::<char>`: succeeds exactly when the string is one
character. -/
def parseChar (t : List Char) : Option Char :=
  match t with
  | [c] => some c
  | _ => none

/-- The model of `f64` values: NaN, a signed infinity, or an exact
rational (both IEEE zeros collapse to `fin 0`). -/
inductive F64 where
  | nan : F64
  | inf (neg : Bool) : F64
  | fin (q : ℚ) : F64
deriving DecidableEq

/-- IEEE `<` on modelled `f64` values (false on NaN operands). -/
def f64Lt : F64 → F64 → Bool
  | .nan, _ => false
  | _, .nan => false
  | .inf true, .inf true => false
  | .inf true, _ => true
  | _, .inf true => false
  | .inf false, _ => false
  | _, .inf false => true
  | .fin a, .fin b => decide (a < b)

/-- IEEE multiplication on modelled `f64` values. -/
def f64Mul : F64 → F64 → F64
  | .nan, _ => .nan
  | _, .nan => .nan
  | .inf s, .inf t => .inf (s != t)
  | .inf s, .fin q => if q = 0 then .nan else .inf (s != decide (q < 0))
  | .fin q, .inf s => if q = 0 then .nan else .inf (s != decide (q < 0))
  | .fin a, .fin b => .fin (a * b)

/-- Round half away from zero, the rounding of `f64::round`. -/
def rha (q : ℚ) : ℤ :=
  if 0 ≤ q then ⌊q + 1 / 2⌋ else -⌊-q + 1 / 2⌋

/-- `f64::round` on modelled values. -/
def roundF : F64 → F64
  | .fin q => .fin ((rha q : ℤ) : ℚ)
  | x => x

/-- Rust's `as u64` cast from `f64`: saturating, truncating toward zero,
NaN to 0. -/
def castU64 : F64 → Nat
  | .nan => 0
  | .inf true => 0
  | .inf false => U64MOD - 1
  | .fin q => if q < 0 then 0 else min (U64MOD - 1) ⌊q⌋.toNat

/-- Splits a token at the first `e`/`E`, separating the mantissa from an
optional exponent part (the shape of Rust's `f64` grammar). -/
def splitAtExp : List Char → List Char × Option (List Char)
  | [] => ([], none)
  | c :: cs =>
    if c = 'e' || c = 'E' then ([], some cs)
    else
      let p := splitAtExp cs
      (c :: p.1, p.2)

/-- Strips one optional leading sign, returning whether it was `-`. -/
def stripSign : List Char → Bool × List Char
  | '+' :: r => (false, r)
  | '-' :: r => (true, r)
  | t => (false, t)

/-- The rational value `i + f / 10 ^ k` of a decimal mantissa with
integer part `i`, fraction digits valued `f`, and `k` fraction digits.
The `f = 0` case is split off so that integer-valued results stay free
of rational arithmetic (which the kernel cannot reduce). -/
def decQ (i f k : ℕ) : ℚ :=
  if f = 0 then (i : ℚ) else (i : ℚ) + (f : ℚ) / 10 ^ k

theorem decQ_eq (i f k : ℕ) : decQ i f k = (i : ℚ) + (f : ℚ) / 10 ^ k := by
  unfold decQ
  split <;> simp [*]

/-- Mantissa of Rust's `f64` grammar:
`Digit+ | Digit+ '.' Digit* | Digit* '.' Digit+`, valued exactly. -/
def parseMant (m : List Char) : Option ℚ :=
  let ip := m.takeWhile isDigitC
  let rest := m.dropWhile isDigitC
  match rest with
  | [] => if ip.isEmpty then none else some (decQ (digitsVal ip) 0 0)
  | '.' :: fp =>
    if fp.all isDigitC && !(ip.isEmpty && fp.isEmpty) then
      some (decQ (digitsVal ip) (digitsVal fp) fp.length)
    else none
  | _ => none

/-- Exponent part of Rust's `f64` grammar: optional sign then digits. -/
def parseExp (t : List Char) : Option ℤ :=
  let p := stripSign t
  if !p.2.isEmpty && p.2.all isDigitC then
    some ((if p.1 then -1 else 1) * (digitsVal p.2 : ℤ))
  else none

/-- `str::parse::<f64>`: optional sign, then a case-insensitive
`inf`/`infinity`/`nan` or a decimal number with optional exponent.  The
numeric value is kept exact instead of being rounded to binary64. -/
def parseF64 (t : List Char) : Option F64 :=
  let p := stripSign t
  let neg := p.1
  let r := p.2
  if r.map lowerC = ('i' :: 'n' :: 'f' :: []) ||
      r.map lowerC = ('i' :: 'n' :: 'f' :: 'i' :: 'n' :: 'i' :: 't' :: 'y' :: []) then
    some (.inf neg)
  else if r.map lowerC = ('n' :: 'a' :: 'n' :: []) then
    some .nan
  else
    let sp := splitAtExp r
    match parseMant sp.1 with
    | none => none
    | some v =>
      match sp.2 with
      | none => some (.fin (if neg then -v else v))
      | some etok =>
        match parseExp etok with
        | none => none
        | some e => some (.fin ((if neg then -v else v) * 10 ^ e))

/-- The `MSite` struct of the source. -/
structure MSite where
  chrom : List Char
  pos : Nat
  strand : Char
  context : List Char
  meth : F64
  n_reads : Nat
deriving DecidableEq

/-- Outcome of `MSite::build`: success, a recoverable `Err` with the
source's message string, or a panic (an `.unwrap()` on a failed parse). -/
inductive BRes where
  | ok (s : MSite) : BRes
  | err (msg : List Char) : BRes
  | panicked : BRes
deriving DecidableEq

def msgChrom : List Char := ("failed to extract chrom").toList
def msgPos : List Char := ("failed to extract pos").toList
def msgStrand : List Char := ("failed to extract strand").toList
def msgContext : List Char := ("failed to extract context").toList
def msgMeth : List Char := ("failed to extract meth").toList
def msgRange : List Char := ("methylation level not in range").toList
def msgNReads : List Char := ("failed to extract n_reads").toList

/-- The body of `MSite::build` after `split_whitespace`: the successive
`parts.next()` matches, the `.unwrap()` on each numeric/char parse, and
the meth range check placed between the meth and n_reads fields. -/
def buildTokens : List (List Char) → BRes
  | [] => .err msgChrom
  | chrom :: rest =>
    match rest with
    | [] => .err msgPos
    | ptok :: rest =>
      match parseU64 ptok with
      | none => .panicked
      | some pos =>
        match rest with
        | [] => .err msgStrand
        | stok :: rest =>
          match parseChar stok with
          | none => .panicked
          | some strand =>
            match rest with
            | [] => .err msgContext
            | context :: rest =>
              match rest with
              | [] => .err msgMeth
              | mtok :: rest =>
                match parseF64 mtok with
                | none => .panicked
                | some meth =>
                  if f64Lt meth (.fin 0) || f64Lt (.fin 1) meth then
                    .err msgRange
                  else
                    match rest with
                    | [] => .err msgNReads
                    | ntok :: _ =>
                      match parseU64 ntok with
                      | none => .panicked
                      | some n_reads =>
                        .ok ⟨chrom, pos, strand, context, meth, n_reads⟩

/-- `str::split_whitespace` (accumulator holds the current token
reversed). -/
def splitWsAux : List Char → List Char → List (List Char)
  | [], acc => if acc.isEmpty then [] else [acc.reverse]
  | c :: cs, acc =>
    if isWsC c then
      if acc.isEmpty then splitWsAux cs []
      else acc.reverse :: splitWsAux cs []
    else splitWsAux cs (c :: acc)

/-- `str::split_whitespace`: tokens between runs of whitespace. -/
def splitWs (l : List Char) : List (List Char) := splitWsAux l []

/-- `MSite::build` on a whole line. -/
def build (l : List Char) : BRes := buildTokens (splitWs l)

example : build ("chr1 0 + CpG 0 0").toList =
    .ok ⟨("chr1").toList, 0, '+', ("CpG").toList, .fin (decQ 0 0 0), 0⟩ := by
  decide

example : build ("chr1 1 + CpG 0").toList = .err msgNReads := by decide

example : build ("chr1 -10 + CpG 0 0").toList = .panicked := by decide

/-- Floor of the base-2 logarithm by repeated halving.  The fuel is a
small literal (64 covers every `u64` value) so that the kernel can
evaluate the recursion. -/
def natLog2 : ℕ → ℕ → ℕ
  | 0, _ => 0
  | fuel + 1, n => if n < 2 then 0 else natLog2 fuel (n / 2) + 1

/-- Rust's `u64 as f64` conversion: round to the nearest representable
binary64 value, ties to even.  Values up to `2^53` are exact; above
that, the value is rounded to the nearest multiple of its ulp
`2^(log2 n - 52)`, taking the even multiple on a tie. -/
def rne53 (n : ℕ) : ℕ :=
  if n ≤ 2 ^ 53 then n
  else
    let k := natLog2 64 n
    let u := 2 ^ (k - 52)
    let q := n / u
    let r := n % u
    if 2 * r < u then q * u
    else if u < 2 * r then (q + 1) * u
    else if q % 2 = 0 then q * u else (q + 1) * u

theorem rne53_of_le (n : ℕ) (h : n ≤ 2 ^ 53) : rne53 n = n := by
  unfold rne53
  rw [if_pos h]

/-- `MSite::n_meth`: `((self.n_reads as f64) * self.meth).round() as u64`
(the `u64` to `f64` conversion rounds via `rne53`; the product itself
is exact in the rational model). -/
def n_meth (s : MSite) : Nat :=
  castU64 (roundF (f64Mul (.fin ((rne53 s.n_reads : ℕ) : ℚ)) s.meth))

/-- `MSite::n_umeth`: `self.n_reads - self.n_meth()`, the wrapping `u64`
subtraction (for in-contract sites it never wraps). -/
def n_umeth (s : MSite) : Nat :=
  (((s.n_reads : ℤ) - (n_meth s : ℤ)) % (U64MOD : ℤ)).toNat

/-- `MSite::is_cpg`: context at least 3 bytes long with prefix `CpG`
(written as a pattern match, equivalent to the source's three indexed
byte comparisons). -/
def isCpg (s : MSite) : Bool :=
  match s.context with
  | 'C' :: 'p' :: 'G' :: _ => true
  | _ => false

/-- `MSite::is_ccg`. -/
def isCcg (s : MSite) : Bool :=
  match s.context with
  | 'C' :: 'C' :: 'G' :: _ => true
  | _ => false

/-- `MSite::is_cxg`. -/
def isCxg (s : MSite) : Bool :=
  match s.context with
  | 'C' :: 'X' :: 'G' :: _ => true
  | _ => false

/-- `MSite::is_chh`. -/
def isChh (s : MSite) : Bool :=
  match s.context with
  | 'C' :: 'H' :: 'H' :: _ => true
  | _ => false

/-- `MSite::is_mutated`: nonempty context ending in the sentinel `x`. -/
def isMutated (s : MSite) : Bool :=
  s.context.getLast? == some 'x'

/-- `MSite::set_unmutated`: drop the trailing sentinel if present. -/
def setUnmutated (s : MSite) : MSite :=
  if isMutated s then { s with context := s.context.dropLast } else s

/-- `MSite::is_mate_of`: `self.pos + 1 == second.pos` (wrapping `u64`
addition), both CpG, `self` on `+` and `second` on `-`. -/
def isMateOf (s second : MSite) : Bool :=
  ((s.pos + 1) % U64MOD == second.pos) && (isCpg s && isCpg second) &&
    (s.strand == '+' && second.strand == '-')

/-- `MSite::add`: propagate the mutation sentinel, sum the methylated
read counts of both operands, sum `n_reads` (wrapping `u64` addition),
and recompute `meth` as a fresh quotient with denominator
`max(1, n_reads)`. -/
def msiteAdd (a b : MSite) : MSite :=
  let ctx := if !isMutated a && isMutated b then a.context ++ ['x']
    else a.context
  let total := (n_meth a + n_meth b) % U64MOD
  let nr := (a.n_reads + b.n_reads) % U64MOD
  { chrom := a.chrom, pos := a.pos, strand := a.strand, context := ctx,
    meth := .fin ((total : ℚ) / ((max 1 nr : ℕ) : ℚ)), n_reads := nr }

/-- Three-way comparison of naturals (`Ord` for `u64`). -/
def cmpNat (n m : Nat) : Ordering :=
  if n < m then .lt else if m < n then .gt else .eq

/-- `Ord` for `char`: by code point. -/
def cmpChar (a b : Char) : Ordering := cmpNat a.toNat b.toNat

/-- `Ord` for `Vec<u8>` holding UTF-8 text: lexicographic on bytes,
which for UTF-8 agrees with lexicographic on code points. -/
def cmpListC : List Char → List Char → Ordering
  | [], [] => .eq
  | [], _ :: _ => .lt
  | _ :: _, [] => .gt
  | a :: as_, b :: bs =>
    match cmpChar a b with
    | .eq => cmpListC as_ bs
    | o => o

/-- `PartialOrd` for `f64`: `None` exactly when an operand is NaN. -/
def f64Pcmp : F64 → F64 → Option Ordering
  | .nan, _ => none
  | _, .nan => none
  | .inf true, .inf true => some .eq
  | .inf true, _ => some .lt
  | _, .inf true => some .gt
  | .inf false, .inf false => some .eq
  | .inf false, _ => some .gt
  | _, .inf false => some .lt
  | .fin a, .fin b =>
    some (if a < b then .lt else if b < a then .gt else .eq)

/-- The derived `PartialOrd::partial_cmp` for `MSite`: lexicographic
over the fields in declaration order, propagating `None` from the
`meth` comparison.  `Ord::cmp` is `partial_cmp(..).unwrap()`, so a
`none` result models a panic of `cmp`. -/
def msitePcmp (a b : MSite) : Option Ordering :=
  match cmpListC a.chrom b.chrom with
  | .eq =>
    match cmpNat a.pos b.pos with
    | .eq =>
      match cmpChar a.strand b.strand with
      | .eq =>
        match cmpListC a.context b.context with
        | .eq =>
          match f64Pcmp a.meth b.meth with
          | some .eq => some (cmpNat a.n_reads b.n_reads)
          | o => o
        | o => some o
      | o => some o
    | o => some o
  | o => some o

/-- Big-endian decimal digits of `n` (little-endian worker with enough
fuel; structural so that the kernel can evaluate it). -/
def natDigitsLE : Nat → Nat → List Nat
  | 0, _ => []
  | fuel + 1, n => if n = 0 then [] else n % 10 :: natDigitsLE fuel (n / 10)

/-- Digit value to digit character. -/
def digitChar (d : Nat) : Char := Char.ofNat (48 + d)

/-- Decimal rendering of a natural number (the `Display` of `u64`). -/
def natRepr (n : Nat) : List Char :=
  if n = 0 then ['0'] else ((natDigitsLE (n + 1) n).reverse.map digitChar)

/-- Left-pad with `0` to `k` characters. -/
def padZeros (l : List Char) (k : Nat) : List Char :=
  List.replicate (k - l.length) '0' ++ l

/-- Remove trailing `0` characters. -/
def stripZeros (l : List Char) : List Char :=
  (l.reverse.dropWhile (fun c => c = '0')).reverse

/-- Minimal decimal rendering of the value `z / 10^6`: sign, integer
part, and the 6 fraction digits with trailing zeros removed (no decimal
point when the fraction vanishes).  This is Rust's `Display` (`{}`)
output for an `f64` holding such a value. -/
def dispScaled (z : ℤ) : List Char :=
  let a := z.natAbs
  let frac := stripZeros (padZeros (natRepr (a % 1000000)) 6)
  (if z < 0 then ['-'] else []) ++ natRepr (a / 1000000) ++
    (if frac.isEmpty then [] else '.' :: frac)

/-- The meth field of `Display for MSite`: the source computes
`m = (self.meth * 1000000.0).round() / 1000000.0` and prints `m` with
`{}`.  The quantized value is an integer over `10^6`; the division and
the minimal-form printing are fused in `dispScaled`. -/
def dispMeth (x : F64) : List Char :=
  match roundF (f64Mul x (.fin 1000000)) with
  | .nan => ("NaN").toList
  | .inf neg => if neg then ("-inf").toList else ("inf").toList
  | .fin z => dispScaled z.num

/-- `Display for MSite`: the six fields joined by single tabs, exactly
the shape of the source's format string. -/
def msiteDisplay (s : MSite) : List Char :=
  s.chrom ++ '\t' ::
    (natRepr s.pos ++ '\t' ::
      ([s.strand] ++ '\t' ::
        (s.context ++ '\t' ::
          (dispMeth s.meth ++ '\t' :: natRepr s.n_reads))))

/-- A token is whitespace-free. -/
def WsFree (t : List Char) : Prop := ∀ c ∈ t, isWsC c = false

instance (t : List Char) : Decidable (WsFree t) :=
  List.decidableBAll _ t

/-- Joining tokens with a single separator character (used to state the
round-trip and truncation claims about whole lines). -/
def joinSep (w : Char) : List (List Char) → List Char
  | [] => []
  | [t] => t
  | t :: ts => t ++ w :: joinSep w ts

theorem splitWsAux_append (t : List Char) (l acc : List Char)
    (ht : WsFree t) :
    splitWsAux (t ++ l) acc = splitWsAux l (t.reverse ++ acc) := by
  induction t generalizing acc with
  | nil => simp
  | cons c t ih =>
    have hc : isWsC c = false := ht c (by simp)
    simp only [List.cons_append, splitWsAux, hc, Bool.false_eq_true,
      if_false, List.reverse_cons, List.append_assoc, List.cons_append,
      List.nil_append]
    exact ih (c :: acc) (fun d hd => ht d (List.mem_cons_of_mem _ hd))

theorem splitWs_token_sep (t : List Char) (w : Char) (l : List Char)
    (ht : WsFree t) (hne : t ≠ []) (hw : isWsC w = true) :
    splitWs (t ++ w :: l) = t :: splitWs l := by
  unfold splitWs
  rw [splitWsAux_append t (w :: l) [] ht]
  have hre : t.reverse.isEmpty = false := by
    cases t with
    | nil => exact absurd rfl hne
    | cons c t => simp [List.isEmpty_iff]
  simp only [splitWsAux, hw, if_true, hre, Bool.false_eq_true, if_false,
    List.append_nil, List.reverse_reverse]

theorem splitWs_token (t : List Char) (ht : WsFree t) (hne : t ≠ []) :
    splitWs t = [t] := by
  unfold splitWs
  rw [show t = t ++ ([] : List Char) from by simp, splitWsAux_append t [] [] ht]
  have hre : t.reverse.isEmpty = false := by
    cases t with
    | nil => exact absurd rfl hne
    | cons c t => simp [List.isEmpty_iff]
  simp only [splitWsAux, hre, Bool.false_eq_true, if_false,
    List.append_nil, List.reverse_reverse, List.append_nil]

theorem splitWs_joinSep (w : Char) (hw : isWsC w = true) :
    ∀ ts : List (List Char), (∀ t ∈ ts, WsFree t ∧ t ≠ []) →
      splitWs (joinSep w ts) = ts
  | [], _ => rfl
  | [t], h => by
    have := h t (by simp)
    simpa [joinSep] using splitWs_token t this.1 this.2
  | t :: t' :: ts, h => by
    have h1 := h t (by simp)
    have hrest := splitWs_joinSep w hw (t' :: ts)
      (fun u hu => h u (by simp [hu]))
    simp only [joinSep]
    rw [splitWs_token_sep t w (joinSep w (t' :: ts)) h1.1 h1.2 hw, hrest]

theorem splitWs_tokens (l : List Char) :
    ∀ t ∈ splitWs l, WsFree t ∧ t ≠ [] := by
  have key : ∀ (l acc : List Char), WsFree acc →
      ∀ t ∈ splitWsAux l acc, WsFree t ∧ t ≠ [] := by
    intro l
    induction l with
    | nil =>
      intro acc hacc t ht
      by_cases h : acc.isEmpty
      · simp [splitWsAux, h] at ht
      · simp only [splitWsAux, h, Bool.false_eq_true, if_false,
          List.mem_singleton] at ht
        subst ht
        refine ⟨fun c hc => hacc c (by simpa using hc), ?_⟩
        simpa [List.isEmpty_iff] using h
    | cons c cs ih =>
      intro acc hacc t ht
      by_cases hc : isWsC c = true
      · by_cases h : acc.isEmpty
        · simp only [splitWsAux, hc, if_true, h] at ht
          exact ih [] (by intro d hd; simp at hd) t ht
        · simp only [splitWsAux, hc, if_true, h, Bool.false_eq_true,
            if_false, List.mem_cons] at ht
          rcases ht with rfl | ht
          · refine ⟨fun d hd => hacc d (by simpa using hd), ?_⟩
            simpa [List.isEmpty_iff] using h
          · exact ih [] (by intro d hd; simp at hd) t ht
      · simp only [splitWsAux, hc, Bool.false_eq_true, if_false] at ht
        refine ih (c :: acc) ?_ t ht
        intro d hd
        rcases List.mem_cons.mp hd with rfl | hd
        · simpa using hc
        · exact hacc d hd
  exact key l [] (by intro d hd; simp at hd)

/-- Splitting on the tab character, keeping empty fields: the reading
of "fields" used to state that formatted output has exactly six
tab-separated fields. -/
def splitTab : List Char → List (List Char)
  | [] => [[]]
  | c :: cs =>
    if c = '\t' then [] :: splitTab cs
    else
      match splitTab cs with
      | [] => [[c]]
      | t :: ts => (c :: t) :: ts

theorem splitTab_ne_nil (l : List Char) : splitTab l ≠ [] := by
  cases l with
  | nil => simp [splitTab]
  | cons c cs =>
    by_cases h : c = '\t'
    · simp [splitTab, h]
    · simp only [splitTab, h, if_false]
      cases splitTab cs <;> simp

theorem splitTab_no_tab (t : List Char) (ht : ∀ c ∈ t, c ≠ '\t') :
    splitTab t = [t] := by
  induction t with
  | nil => rfl
  | cons c cs ih =>
    have hc : c ≠ '\t' := ht c (by simp)
    have h2 := ih (fun d hd => ht d (List.mem_cons_of_mem _ hd))
    simp only [splitTab, hc, if_false, h2]

theorem splitTab_append (t : List Char) (l : List Char)
    (ht : ∀ c ∈ t, c ≠ '\t') :
    splitTab (t ++ '\t' :: l) = t :: splitTab l := by
  induction t with
  | nil => simp [splitTab]
  | cons c cs ih =>
    have hc : c ≠ '\t' := ht c (by simp)
    have h2 := ih (fun d hd => ht d (List.mem_cons_of_mem _ hd))
    simp only [List.cons_append, splitTab, hc, if_false, List.append_eq, h2]

theorem parseChar_some {t : List Char} {c : Char}
    (h : parseChar t = some c) : t = [c] := by
  cases t with
  | nil => simp [parseChar] at h
  | cons a t' =>
    cases t' with
    | nil =>
      simp only [parseChar, Option.some.injEq] at h
      rw [h]
    | cons b t'' => simp [parseChar] at h

/-- `MSite::build` never looks past the sixth token. -/
theorem buildTokens_take6 (ts : List (List Char)) :
    buildTokens (ts.take 6) = buildTokens ts := by
  rcases ts with _ | ⟨a, _ | ⟨b, _ | ⟨c, _ | ⟨d, _ | ⟨e, _ | ⟨f, rest⟩⟩⟩⟩⟩⟩ <;> rfl

/-- Reading the fields of a successfully built site back from the six
tokens that produced it. -/
theorem buildTokens_ok_fields
    (t1 t2 t3 t4 t5 t6 : List Char) (rest : List (List Char)) (s : MSite)
    (h : buildTokens (t1 :: t2 :: t3 :: t4 :: t5 :: t6 :: rest) = .ok s) :
    s.chrom = t1 ∧ parseU64 t2 = some s.pos ∧ t3 = [s.strand] ∧
      s.context = t4 ∧ parseF64 t5 = some s.meth ∧
      parseU64 t6 = some s.n_reads := by
  simp only [buildTokens] at h
  cases hp : parseU64 t2 with
  | none =>
    simp only [hp] at h
    exact BRes.noConfusion h
  | some pv =>
    simp only [hp] at h
    cases hs : parseChar t3 with
    | none =>
      simp only [hs] at h
      exact BRes.noConfusion h
    | some sv =>
      simp only [hs] at h
      cases hm : parseF64 t5 with
      | none =>
        simp only [hm] at h
        exact BRes.noConfusion h
      | some mv =>
        simp only [hm] at h
        by_cases hr : (f64Lt mv (.fin 0) || f64Lt (.fin 1) mv) = true
        · simp only [hr, if_true] at h
          exact BRes.noConfusion h
        · simp only [hr, if_false] at h
          cases hn : parseU64 t6 with
          | none =>
            simp only [hn] at h
            exact BRes.noConfusion h
          | some nv =>
            simp only [hn] at h
            injection h with h2
            subst h2
            exact ⟨rfl, rfl, parseChar_some hs, rfl, rfl, rfl⟩

theorem rha_intCast (z : ℤ) : rha ((z : ℚ)) = z := by
  unfold rha
  split
  · rw [add_comm, Int.floor_add_int]
    norm_num
  · rw [show -((z : ℚ)) + 1 / 2 = (1 : ℚ) / 2 + ((-z : ℤ) : ℚ) from by
      push_cast
      ring]
    rw [Int.floor_add_int]
    norm_num

theorem rha_natCast (n : ℕ) : rha ((n : ℚ)) = n := by
  have h := rha_intCast ((n : ℤ))
  rw [Int.cast_natCast] at h
  exact h

theorem dispMeth_fin (q : ℚ) :
    dispMeth (F64.fin q) = dispScaled (rha (q * 1000000)) := by
  simp [dispMeth, f64Mul, roundF, Rat.num_intCast]

theorem digitChar_toNat (d : ℕ) (h : d < 10) :
    (digitChar d).toNat = 48 + d := by
  interval_cases d <;> decide

theorem isDigitC_digitChar (d : ℕ) (h : d < 10) :
    isDigitC (digitChar d) = true := by
  interval_cases d <;> decide

theorem digitVal_digitChar (d : ℕ) (h : d < 10) :
    digitVal (digitChar d) = d := by
  interval_cases d <;> decide

theorem digitsVal_foldl (b : List Char) (acc : ℕ) :
    b.foldl (fun a c => a * 10 + digitVal c) acc =
      acc * 10 ^ b.length + digitsVal b := by
  induction b generalizing acc with
  | nil => simp [digitsVal]
  | cons c b ih =>
    simp only [List.foldl_cons]
    rw [ih (acc * 10 + digitVal c)]
    have h2 : digitsVal (c :: b) = digitVal c * 10 ^ b.length + digitsVal b := by
      rw [show digitsVal (c :: b) =
        List.foldl (fun a c => a * 10 + digitVal c) (0 * 10 + digitVal c) b
          from rfl, ih (0 * 10 + digitVal c)]
      ring
    rw [h2, List.length_cons]
    ring

theorem digitsVal_cons (c : Char) (b : List Char) :
    digitsVal (c :: b) = digitVal c * 10 ^ b.length + digitsVal b := by
  unfold digitsVal
  simp only [List.foldl_cons]
  rw [digitsVal_foldl]
  simp only [digitsVal]
  ring

theorem digitsVal_append (a b : List Char) :
    digitsVal (a ++ b) = digitsVal a * 10 ^ b.length + digitsVal b := by
  unfold digitsVal
  rw [List.foldl_append]
  exact digitsVal_foldl b _

theorem digitsVal_replicate_zero (k : ℕ) :
    digitsVal (List.replicate k '0') = 0 := by
  induction k with
  | zero => rfl
  | succ k ih =>
    rw [List.replicate_succ, digitsVal_cons, ih,
      show digitVal ('0') = 0 from by decide]
    ring

theorem digitsVal_zeros_left (k : ℕ) (m : List Char) :
    digitsVal (List.replicate k '0' ++ m) = digitsVal m := by
  rw [digitsVal_append, digitsVal_replicate_zero]
  ring

theorem digitsVal_zeros_right (a : List Char) (j : ℕ) :
    digitsVal (a ++ List.replicate j '0') = digitsVal a * 10 ^ j := by
  rw [digitsVal_append, digitsVal_replicate_zero, List.length_replicate]
  ring

/-- Value of a little-endian digit list. -/
def valLE : List ℕ → ℕ
  | [] => 0
  | d :: ds => d + 10 * valLE ds

theorem digitsVal_rev_map (ds : List ℕ) (h : ∀ d ∈ ds, d < 10) :
    digitsVal (ds.reverse.map digitChar) = valLE ds := by
  induction ds with
  | nil => rfl
  | cons d ds ih =>
    simp only [List.reverse_cons, List.map_append, List.map_cons,
      List.map_nil]
    rw [digitsVal_append, ih (fun x hx => h x (List.mem_cons_of_mem _ hx)),
      digitsVal_cons, digitVal_digitChar d (h d (List.mem_cons_self _ _))]
    simp only [valLE, List.length_cons, List.length_nil, pow_zero, pow_one,
      digitsVal, List.foldl_nil]
    ring

theorem natDigitsLE_lt10 (fuel : ℕ) :
    ∀ n, ∀ d ∈ natDigitsLE fuel n, d < 10 := by
  induction fuel with
  | zero => intro n d hd; simp [natDigitsLE] at hd
  | succ fuel ih =>
    intro n d hd
    by_cases h : n = 0
    · simp [natDigitsLE, h] at hd
    · simp only [natDigitsLE, h, if_false, List.mem_cons] at hd
      rcases hd with rfl | hd
      · exact Nat.mod_lt _ (by omega)
      · exact ih _ d hd

theorem valLE_natDigitsLE (fuel : ℕ) :
    ∀ n, n < fuel → valLE (natDigitsLE fuel n) = n := by
  induction fuel with
  | zero => omega
  | succ fuel ih =>
    intro n hn
    by_cases h : n = 0
    · simp [natDigitsLE, h, valLE]
    · simp only [natDigitsLE, h, if_false, valLE]
      rw [ih (n / 10) (by omega)]
      omega

theorem digitsVal_natRepr (n : ℕ) : digitsVal (natRepr n) = n := by
  unfold natRepr
  by_cases h : n = 0
  · subst h; decide
  · simp only [h, if_false]
    rw [digitsVal_rev_map _ (natDigitsLE_lt10 _ n),
      valLE_natDigitsLE (n + 1) n (by omega)]

theorem natRepr_digits (n : ℕ) : ∀ c ∈ natRepr n, isDigitC c = true := by
  unfold natRepr
  by_cases h : n = 0
  · subst h; decide
  · simp only [h, if_false]
    intro c hc
    rw [List.mem_map] at hc
    obtain ⟨d, hd, rfl⟩ := hc
    exact isDigitC_digitChar d
      (natDigitsLE_lt10 _ n d (List.mem_reverse.mp hd))

theorem natRepr_ne_nil (n : ℕ) : natRepr n ≠ [] := by
  unfold natRepr
  by_cases h : n = 0
  · simp [h]
  · simp only [h, if_false]
    have : natDigitsLE (n + 1) n = n % 10 :: natDigitsLE n (n / 10) := by
      simp [natDigitsLE, h]
    simp [this]

theorem natDigitsLE_length (fuel : ℕ) :
    ∀ n k, n < 10 ^ k → (natDigitsLE fuel n).length ≤ k := by
  induction fuel with
  | zero => intro n k _; simp [natDigitsLE]
  | succ fuel ih =>
    intro n k hk
    by_cases h : n = 0
    · simp [natDigitsLE, h]
    · cases k with
      | zero =>
        simp only [pow_zero] at hk
        omega
      | succ k =>
        simp only [natDigitsLE, h, if_false, List.length_cons]
        have : n / 10 < 10 ^ k := by
          rw [Nat.div_lt_iff_lt_mul (by omega)]
          calc n < 10 ^ (k + 1) := hk
          _ = 10 ^ k * 10 := by ring
        exact Nat.succ_le_succ (ih (n / 10) k this)

theorem natRepr_length_le (n k : ℕ) (h : n < 10 ^ k) (hk : 1 ≤ k) :
    (natRepr n).length ≤ k := by
  unfold natRepr
  by_cases h0 : n = 0
  · simpa [h0] using hk
  · simp only [h0, if_false, List.length_map, List.length_reverse]
    exact natDigitsLE_length _ n k h

theorem isWsC_of_digit (c : Char) (h : isDigitC c = true) :
    isWsC c = false := by
  simp only [isDigitC, Bool.and_eq_true, decide_eq_true_eq] at h
  simp only [isWsC, Bool.or_eq_false_iff, Bool.and_eq_false_iff,
    decide_eq_false_iff_not]
  omega

theorem ne_tab_of_digit (c : Char) (h : isDigitC c = true) : c ≠ '\t' := by
  intro hc
  subst hc
  simp [isDigitC] at h

theorem mem_stripZeros (l : List Char) (c : Char) (hc : c ∈ stripZeros l) :
    c ∈ l := by
  unfold stripZeros at hc
  rw [List.mem_reverse] at hc
  have := (List.dropWhile_sublist (l := l.reverse)
    (p := fun c => c = '0')).subset hc
  exact List.mem_reverse.mp this

theorem mem_padZeros (l : List Char) (k : ℕ) (c : Char)
    (hc : c ∈ padZeros l k) : c ∈ l ∨ c = '0' := by
  unfold padZeros at hc
  rcases List.mem_append.mp hc with h | h
  · exact Or.inr (List.eq_of_mem_replicate h)
  · exact Or.inl h

theorem dispScaled_chars (z : ℤ) :
    ∀ c ∈ dispScaled z, isDigitC c = true ∨ c = '-' ∨ c = '.' := by
  intro c hc
  unfold dispScaled at hc
  rcases List.mem_append.mp hc with h | h
  · rcases List.mem_append.mp h with h2 | h2
    · split at h2
      · simp only [List.mem_singleton] at h2
        exact Or.inr (Or.inl h2)
      · simp at h2
    · exact Or.inl (natRepr_digits _ c h2)
  · split at h
    · simp at h
    · rcases List.mem_cons.mp h with rfl | h2
      · exact Or.inr (Or.inr rfl)
      · rcases mem_padZeros _ _ _ (mem_stripZeros _ _ h2) with h3 | h3
        · exact Or.inl (natRepr_digits _ c h3)
        · subst h3
          exact Or.inl (by decide)

theorem dispScaled_ne_tab (z : ℤ) : ∀ c ∈ dispScaled z, c ≠ '\t' := by
  intro c hc
  rcases dispScaled_chars z c hc with h | h | h
  · exact ne_tab_of_digit c h
  · subst h; decide
  · subst h; decide

theorem dispMeth_cases (x : F64) :
    dispMeth x = ("NaN").toList ∨ dispMeth x = ("inf").toList ∨
      dispMeth x = ("-inf").toList ∨
      ∃ z : ℤ, dispMeth x = dispScaled z := by
  unfold dispMeth
  rcases roundF (f64Mul x (F64.fin 1000000)) with _ | neg | q
  · exact Or.inl rfl
  · cases neg
    · exact Or.inr (Or.inl rfl)
    · exact Or.inr (Or.inr (Or.inl rfl))
  · exact Or.inr (Or.inr (Or.inr ⟨q.num, rfl⟩))

theorem dispMeth_ne_tab (x : F64) : ∀ c ∈ dispMeth x, c ≠ '\t' := by
  intro c hc
  rcases dispMeth_cases x with h | h | h | ⟨z, h⟩ <;> rw [h] at hc
  · exact (by decide : ∀ c ∈ ("NaN").toList, c ≠ '\t') c hc
  · exact (by decide : ∀ c ∈ ("inf").toList, c ≠ '\t') c hc
  · exact (by decide : ∀ c ∈ ("-inf").toList, c ≠ '\t') c hc
  · exact dispScaled_ne_tab _ c hc

theorem natRepr_ne_tab (n : ℕ) : ∀ c ∈ natRepr n, c ≠ '\t' :=
  fun c hc => ne_tab_of_digit c (natRepr_digits n c hc)

theorem digit_ne_chars (c : Char) (h : isDigitC c = true) :
    c ≠ '+' ∧ c ≠ '-' ∧ c ≠ 'e' ∧ c ≠ 'E' ∧ c ≠ '.' ∧ c ≠ 'i' ∧ c ≠ 'n' := by
  refine ⟨?_, ?_, ?_, ?_, ?_, ?_, ?_⟩ <;> intro hc <;> subst hc <;>
    simp [isDigitC] at h

theorem lowerC_digit (c : Char) (h : isDigitC c = true) : lowerC c = c := by
  simp only [isDigitC, Bool.and_eq_true, decide_eq_true_eq] at h
  unfold lowerC
  rw [if_neg]
  simp only [Bool.and_eq_true, decide_eq_true_eq, not_and]
  omega

theorem takeWhile_all_append (p : Char → Bool) (A B : List Char)
    (hA : ∀ c ∈ A, p c = true)
    (hB : ∀ b, B.head? = some b → p b = false) :
    (A ++ B).takeWhile p = A ∧ (A ++ B).dropWhile p = B := by
  induction A with
  | nil =>
    simp only [List.nil_append]
    cases B with
    | nil => simp
    | cons b bs =>
      have hb := hB b rfl
      simp [List.takeWhile_cons, List.dropWhile_cons, hb]
  | cons a A ih =>
    have ha : p a = true := hA a (List.mem_cons_self _ _)
    have h2 := ih (fun c hc => hA c (List.mem_cons_of_mem _ hc))
    simp [List.takeWhile_cons, List.dropWhile_cons, ha, h2.1, h2.2]

theorem splitAtExp_no_e (r : List Char)
    (h : ∀ c ∈ r, c ≠ 'e' ∧ c ≠ 'E') : splitAtExp r = (r, none) := by
  induction r with
  | nil => rfl
  | cons c cs ih =>
    have hc := h c (List.mem_cons_self _ _)
    simp only [splitAtExp,
      show (c = 'e' || c = 'E') = false from by simp [hc.1, hc.2],
      Bool.false_eq_true, if_false]
    rw [ih (fun d hd => h d (List.mem_cons_of_mem _ hd))]

theorem stripSign_no_sign (t : List Char)
    (h : ∀ c, t.head? = some c → c ≠ '+' ∧ c ≠ '-') :
    stripSign t = (false, t) := by
  cases t with
  | nil => rfl
  | cons c cs =>
    have hc := h c rfl
    rw [stripSign.eq_def]
    split <;> simp_all

theorem stripZeros_spec (l : List Char) :
    ∃ j, l = stripZeros l ++ List.replicate j '0' := by
  refine ⟨(l.reverse.takeWhile (fun c => c = '0')).length, ?_⟩
  have h1 : l.reverse.takeWhile (fun c => c = '0') =
      List.replicate (l.reverse.takeWhile (fun c => c = '0')).length '0' := by
    rw [List.eq_replicate_length]
    intro b hb
    have h2 := List.mem_takeWhile_imp hb
    simpa using h2
  calc l = l.reverse.reverse := (List.reverse_reverse l).symm
  _ = (l.reverse.takeWhile (fun c => c = '0') ++
      l.reverse.dropWhile (fun c => c = '0')).reverse := by
    rw [List.takeWhile_append_dropWhile]
  _ = (l.reverse.dropWhile (fun c => c = '0')).reverse ++
      (l.reverse.takeWhile (fun c => c = '0')).reverse := by
    rw [List.reverse_append]
  _ = stripZeros l ++ List.replicate _ '0' := by
    unfold stripZeros
    rw [h1, List.reverse_replicate]
    simp

theorem padZeros_digits (fp : ℕ) :
    ∀ c ∈ padZeros (natRepr fp) 6, isDigitC c = true := by
  intro c hc
  rcases mem_padZeros _ _ _ hc with h | h
  · exact natRepr_digits _ c h
  · subst h; decide

theorem stripZeros_pad_digits (fp : ℕ) :
    ∀ c ∈ stripZeros (padZeros (natRepr fp) 6), isDigitC c = true :=
  fun c hc => padZeros_digits fp c (mem_stripZeros _ _ hc)

theorem frac_decomp (fp : ℕ) (hfp : fp < 1000000) :
    (stripZeros (padZeros (natRepr fp) 6)).length +
      (6 - (stripZeros (padZeros (natRepr fp) 6)).length) = 6 ∧
    digitsVal (stripZeros (padZeros (natRepr fp) 6)) *
      10 ^ (6 - (stripZeros (padZeros (natRepr fp) 6)).length) = fp := by
  obtain ⟨j, hdec⟩ := stripZeros_spec (padZeros (natRepr fp) 6)
  have hlen6 : (padZeros (natRepr fp) 6).length = 6 := by
    unfold padZeros
    have h2 := natRepr_length_le fp 6 (by norm_num [hfp]) (by norm_num)
    simp only [List.length_append, List.length_replicate]
    omega
  have hlen : (stripZeros (padZeros (natRepr fp) 6)).length + j = 6 := by
    have := congrArg List.length hdec
    simp only [List.length_append, List.length_replicate] at this
    omega
  have hval : digitsVal (padZeros (natRepr fp) 6) = fp := by
    unfold padZeros
    rw [digitsVal_zeros_left, digitsVal_natRepr]
  rw [hdec, digitsVal_zeros_right] at hval
  have hj : j = 6 - (stripZeros (padZeros (natRepr fp) 6)).length := by omega
  subst hj
  exact ⟨by omega, hval⟩

/-- The shape of `dispScaled` at a nonnegative argument. -/
theorem dispScaled_natCast (a : ℕ) :
    dispScaled ((a : ℤ)) =
      natRepr (a / 1000000) ++
        (if (stripZeros (padZeros (natRepr (a % 1000000)) 6)).isEmpty
          then []
          else '.' :: stripZeros (padZeros (natRepr (a % 1000000)) 6)) := by
  unfold dispScaled
  rw [if_neg (by simp), Int.natAbs_ofNat]
  simp

theorem dispScaled_neg (z : ℤ) (hz : z < 0) :
    dispScaled z = '-' :: dispScaled ((z.natAbs : ℤ)) := by
  unfold dispScaled
  rw [if_pos hz, if_neg (by omega), Int.natAbs_ofNat]
  simp

/-- The mantissa of a rendered `z / 10^6` parses back to its value. -/
theorem parseMant_dispScaled_nat (a : ℕ) :
    ∃ v : ℚ, parseMant (dispScaled ((a : ℤ))) = some v ∧
      v = (a : ℚ) / 1000000 := by
  have hfd := frac_decomp (a % 1000000) (Nat.mod_lt _ (by norm_num))
  rw [dispScaled_natCast a]
  by_cases hF : (stripZeros (padZeros (natRepr (a % 1000000)) 6)).isEmpty
  · rw [if_pos hF, List.append_nil]
    have hmod : a % 1000000 = 0 := by
      rw [List.isEmpty_iff] at hF
      rw [hF] at hfd
      simpa [digitsVal] using hfd.2.symm
    refine ⟨decQ (digitsVal (natRepr (a / 1000000))) 0 0, ?_, ?_⟩
    · unfold parseMant
      have hsp := takeWhile_all_append isDigitC (natRepr (a / 1000000)) []
        (natRepr_digits _) (by intro b hb; simp at hb)
      simp only [List.append_nil] at hsp
      simp only [hsp.1, hsp.2,
        List.isEmpty_iff.symm]
      rw [if_neg (by simp [List.isEmpty_iff, natRepr_ne_nil])]
    · rw [decQ_eq, digitsVal_natRepr]
      have ha : a = 1000000 * (a / 1000000) := by omega
      rw [show ((a : ℚ)) = ((1000000 * (a / 1000000) : ℕ) : ℚ) from by
        rw [← ha]]
      push_cast
      ring
  · rw [if_neg hF]
    refine ⟨decQ (digitsVal (natRepr (a / 1000000)))
      (digitsVal (stripZeros (padZeros (natRepr (a % 1000000)) 6)))
      (stripZeros (padZeros (natRepr (a % 1000000)) 6)).length, ?_, ?_⟩
    · unfold parseMant
      have hsp := takeWhile_all_append isDigitC (natRepr (a / 1000000))
        ('.' :: stripZeros (padZeros (natRepr (a % 1000000)) 6))
        (natRepr_digits _)
        (by
          intro b hb
          simp only [List.head?_cons, Option.some.injEq] at hb
          subst hb
          decide)
      simp only [hsp.1, hsp.2]
      rw [if_pos]
      simp only [List.all_eq_true, Bool.and_eq_true, Bool.not_eq_true',
        Bool.and_eq_false_iff]
      constructor
      · exact fun c hc => stripZeros_pad_digits _ c hc
      · left
        simp [List.isEmpty_iff, natRepr_ne_nil]
    · rw [decQ_eq, digitsVal_natRepr]
      have h1 := hfd.1
      have h2 := hfd.2
      have hmoddiv : a = a / 1000000 * 1000000 + a % 1000000 := by omega
      have hcast : ((a : ℚ)) =
          ((a / 1000000 : ℕ) : ℚ) * 1000000 + ((a % 1000000 : ℕ) : ℚ) := by
        rw [show ((a : ℚ)) = ((a / 1000000 * 1000000 + a % 1000000 : ℕ) : ℚ)
          from by rw [← hmoddiv]]
        push_cast
        ring
      obtain ⟨L, hL⟩ : ∃ L,
          (stripZeros (padZeros (natRepr (a % 1000000)) 6)).length = L :=
        ⟨_, rfl⟩
      rw [hL] at h1 h2 ⊢
      obtain ⟨D, hD⟩ : ∃ D,
          digitsVal (stripZeros (padZeros (natRepr (a % 1000000)) 6)) = D :=
        ⟨_, rfl⟩
      rw [hD] at h2 ⊢
      rw [hcast, ← h2]
      push_cast
      have hpow : (1000000 : ℚ) = 10 ^ L * 10 ^ (6 - L) := by
        rw [← pow_add, h1]
        norm_num
      rw [hpow]
      have hne : (10 : ℚ) ^ L ≠ 0 := pow_ne_zero _ (by norm_num)
      have hne2 : (10 : ℚ) ^ (6 - L) ≠ 0 := pow_ne_zero _ (by norm_num)
      field_simp
      ring

theorem dispScaled_nat_chars (a : ℕ) :
    ∀ c ∈ dispScaled ((a : ℤ)), isDigitC c = true ∨ c = '.' := by
  intro c hc
  rw [dispScaled_natCast] at hc
  rcases List.mem_append.mp hc with h | h
  · exact Or.inl (natRepr_digits _ c h)
  · split at h
    · simp at h
    · rcases List.mem_cons.mp h with rfl | h2
      · exact Or.inr rfl
      · exact Or.inl (stripZeros_pad_digits _ c h2)

theorem dispScaled_nat_head (a : ℕ) :
    ∃ c rest, dispScaled ((a : ℤ)) = c :: rest ∧ isDigitC c = true := by
  cases hA : natRepr (a / 1000000) with
  | nil => exact absurd hA (natRepr_ne_nil _)
  | cons c A' =>
    refine ⟨c, A' ++
      (if (stripZeros (padZeros (natRepr (a % 1000000)) 6)).isEmpty
        then []
        else '.' :: stripZeros (padZeros (natRepr (a % 1000000)) 6)), ?_, ?_⟩
    · rw [dispScaled_natCast, hA]
      rfl
    · exact natRepr_digits _ c (by rw [hA]; exact List.mem_cons_self _ _)

theorem parseF64_assemble (t w : List Char) (neg : Bool) (v : ℚ)
    (hss : stripSign t = (neg, w))
    (hw : ∀ c ∈ w, isDigitC c = true ∨ c = '.')
    (hhead : ∃ c rest, w = c :: rest ∧ isDigitC c = true)
    (hm : parseMant w = some v) :
    parseF64 t = some (.fin (if neg then -v else v)) := by
  obtain ⟨c, rest, hw2, hc⟩ := hhead
  have hnc := digit_ne_chars c hc
  have hlc : lowerC c = c := lowerC_digit c hc
  have hnotE : ∀ d ∈ w, d ≠ 'e' ∧ d ≠ 'E' := by
    intro d hd
    rcases hw d hd with h | h
    · exact ⟨(digit_ne_chars d h).2.2.1, (digit_ne_chars d h).2.2.2.1⟩
    · subst h
      exact ⟨by decide, by decide⟩
  have hse := splitAtExp_no_e w hnotE
  have hmapne1 : w.map lowerC ≠ ('i' :: 'n' :: 'f' :: []) := by
    rw [hw2]
    intro h
    simp only [List.map_cons, hlc, List.cons.injEq] at h
    exact hnc.2.2.2.2.2.1 h.1
  have hmapne2 : w.map lowerC ≠
      ('i' :: 'n' :: 'f' :: 'i' :: 'n' :: 'i' :: 't' :: 'y' :: []) := by
    rw [hw2]
    intro h
    simp only [List.map_cons, hlc, List.cons.injEq] at h
    exact hnc.2.2.2.2.2.1 h.1
  have hmapne3 : w.map lowerC ≠ ('n' :: 'a' :: 'n' :: []) := by
    rw [hw2]
    intro h
    simp only [List.map_cons, hlc, List.cons.injEq] at h
    exact hnc.2.2.2.2.2.2 h.1
  simp only [parseF64, hss, hmapne1, hmapne2, hmapne3, or_self, or_false,
    false_or, if_false, hse, hm, decide_False, Bool.or_self,
    Bool.false_eq_true]

/-- The rendered `z / 10^6` parses back (under Rust's `f64` grammar) to
exactly the value `z / 10^6`: `Display` output carries the quantized
value faithfully. -/
theorem parseF64_dispScaled (z : ℤ) :
    parseF64 (dispScaled z) = some (.fin ((z : ℚ) / 1000000)) := by
  rcases Int.lt_or_le z 0 with hz | hz
  · rw [dispScaled_neg z hz]
    obtain ⟨v, hm, hv⟩ := parseMant_dispScaled_nat z.natAbs
    have h := parseF64_assemble ('-' :: dispScaled ((z.natAbs : ℤ)))
      (dispScaled ((z.natAbs : ℤ))) true v rfl
      (dispScaled_nat_chars z.natAbs) (dispScaled_nat_head z.natAbs) hm
    rw [h, if_pos rfl, hv]
    congr 1
    congr 1
    have hcast : ((z.natAbs : ℚ)) = -((z : ℚ)) := by
      have h2 : ((z.natAbs : ℤ)) = -z := by omega
      calc ((z.natAbs : ℚ)) = (((z.natAbs : ℤ) : ℚ)) :=
        (Int.cast_natCast z.natAbs).symm
      _ = (((-z : ℤ)) : ℚ) := by rw [h2]
      _ = -((z : ℚ)) := by push_cast; ring
    rw [hcast]
    ring
  · obtain ⟨a, rfl⟩ : ∃ a : ℕ, z = (a : ℤ) := ⟨z.toNat, (Int.toNat_of_nonneg hz).symm⟩
    obtain ⟨v, hm, hv⟩ := parseMant_dispScaled_nat a
    obtain ⟨c, rest, hw2, hc⟩ := dispScaled_nat_head a
    have hss : stripSign (dispScaled ((a : ℤ))) = (false, dispScaled ((a : ℤ))) := by
      apply stripSign_no_sign
      intro d hd
      rw [hw2] at hd
      simp only [List.head?_cons, Option.some.injEq] at hd
      subst hd
      exact ⟨(digit_ne_chars c hc).1, (digit_ne_chars c hc).2.1⟩
    have h := parseF64_assemble (dispScaled ((a : ℤ))) (dispScaled ((a : ℤ)))
      false v hss (dispScaled_nat_chars a) ⟨c, rest, hw2, hc⟩ hm
    rw [h, if_neg (by simp), hv]
    norm_num

theorem head?_dropWhile (p : Char → Bool) (l : List Char) :
    ∀ c, (l.dropWhile p).head? = some c → p c = false := by
  induction l with
  | nil => intro c hc; simp at hc
  | cons a l ih =>
    intro c hc
    by_cases h : p a = true
    · rw [List.dropWhile_cons, if_pos h] at hc
      exact ih c hc
    · rw [List.dropWhile_cons, if_neg h] at hc
      simp only [List.head?_cons, Option.some.injEq] at hc
      subst hc
      simpa using h

theorem stripZeros_getLast (l : List Char) :
    (stripZeros l).getLast? ≠ some '0' := by
  unfold stripZeros
  rw [List.getLast?_reverse]
  intro h
  have := head?_dropWhile (fun c => c = '0') l.reverse '0' h
  simp at this

/-- Minimality of the rendered fraction: if the rendering contains a
decimal point, it ends in neither `0` nor `.`. -/
theorem dispScaled_minimal (z : ℤ) (hdot : '.' ∈ dispScaled z) :
    (dispScaled z).getLast? ≠ some '0' ∧
      (dispScaled z).getLast? ≠ some '.' := by
  have hF : ¬(stripZeros (padZeros (natRepr (z.natAbs % 1000000)) 6)).isEmpty = true := by
    intro hF
    simp only [dispScaled] at hdot
    rw [if_pos hF, List.append_nil] at hdot
    rcases List.mem_append.mp hdot with h | h
    · split at h
      · simp only [List.mem_singleton] at h
        exact absurd h (by decide)
      · simp at h
    · exact absurd (natRepr_digits _ _ h) (by decide)
  have hFne : stripZeros (padZeros (natRepr (z.natAbs % 1000000)) 6) ≠ [] := by
    simpa [List.isEmpty_iff] using hF
  have hsplit : dispScaled z =
      ((if z < 0 then ['-'] else []) ++ natRepr (z.natAbs / 1000000) ++ ['.']) ++
        stripZeros (padZeros (natRepr (z.natAbs % 1000000)) 6) := by
    simp only [dispScaled]
    rw [if_neg hF]
    simp
  have hlast : (dispScaled z).getLast? =
      (stripZeros (padZeros (natRepr (z.natAbs % 1000000)) 6)).getLast? := by
    rw [hsplit, List.getLast?_append_of_ne_nil _ hFne]
  constructor
  · rw [hlast]
    exact stripZeros_getLast _
  · rw [hlast]
    intro h
    have hmem : '.' ∈ stripZeros (padZeros (natRepr (z.natAbs % 1000000)) 6) :=
      List.mem_of_mem_getLast? h
    exact absurd (stripZeros_pad_digits _ _ hmem) (by decide)

/-- `n_meth` for a site with a finite in-range meth value and a read
count at most `2^53` (where the `u64` to `f64` cast is exact): the
rounded product, which never exceeds `n_reads`. -/
theorem n_meth_fin (s : MSite) (q : ℚ) (hq : s.meth = .fin q) (h0 : 0 ≤ q)
    (h1 : q ≤ 1) (hn : s.n_reads ≤ 2 ^ 53) :
    n_meth s = (rha ((s.n_reads : ℚ) * q)).toNat ∧ n_meth s ≤ s.n_reads := by
  unfold n_meth
  rw [hq, rne53_of_le s.n_reads hn]
  simp only [f64Mul, roundF, castU64]
  have hnn : 0 ≤ (s.n_reads : ℚ) * q := mul_nonneg (by positivity) h0
  have hle : (s.n_reads : ℚ) * q ≤ (s.n_reads : ℚ) := by
    calc (s.n_reads : ℚ) * q ≤ (s.n_reads : ℚ) * 1 :=
      mul_le_mul_of_nonneg_left h1 (by positivity)
    _ = (s.n_reads : ℚ) := mul_one _
  have hz0 : 0 ≤ rha ((s.n_reads : ℚ) * q) := by
    unfold rha
    rw [if_pos hnn]
    apply Int.floor_nonneg.mpr
    linarith
  have hzle : rha ((s.n_reads : ℚ) * q) ≤ (s.n_reads : ℤ) := by
    unfold rha
    rw [if_pos hnn]
    have h2 : (s.n_reads : ℚ) * q + 1 / 2 ≤ (s.n_reads : ℚ) + 1 / 2 := by
      linarith
    have hfl : ⌊((s.n_reads : ℚ)) + 1 / 2⌋ = (s.n_reads : ℤ) := by
      rw [show ((s.n_reads : ℚ)) + 1 / 2 = 1 / 2 + (((s.n_reads : ℤ)) : ℚ)
        from by push_cast; ring, Int.floor_add_int]
      norm_num
    have h3 := Int.floor_le_floor h2
    rw [hfl] at h3
    exact h3
  rw [if_neg (by
    simp only [not_lt]
    exact_mod_cast hz0), Int.floor_intCast]
  have hU : U64MOD = 18446744073709551616 := rfl
  constructor
  · rw [min_eq_right]
    omega
  · rw [min_eq_right] <;> omega

/-- `n_umeth + n_meth = n_reads` whenever `n_meth` does not exceed
`n_reads` (the `u64` subtraction does not wrap). -/
theorem n_umeth_add (s : MSite) (h : n_meth s ≤ s.n_reads)
    (hn : s.n_reads < U64MOD) : n_umeth s + n_meth s = s.n_reads := by
  unfold n_umeth
  have hU : U64MOD = 18446744073709551616 := rfl
  have h1 : 0 ≤ (s.n_reads : ℤ) - (n_meth s : ℤ) := by omega
  have h2 : (s.n_reads : ℤ) - (n_meth s : ℤ) < ((U64MOD : ℕ) : ℤ) := by
    omega
  rw [Int.emod_eq_of_lt h1 h2]
  omega

/-- Zero-reads sites contribute zero methylated reads, whatever the
meth value (NaN and infinities cast to 0). -/
theorem n_meth_zero (s : MSite) (h : s.n_reads = 0) : n_meth s = 0 := by
  unfold n_meth
  rw [h, rne53_of_le 0 (by norm_num), Nat.cast_zero]
  rcases s.meth with _ | neg | q
  · rfl
  · simp [f64Mul, roundF, castU64]
  · simp only [f64Mul, zero_mul, roundF, castU64]
    rw [show rha 0 = 0 from by unfold rha; norm_num]
    simp

theorem f64Pcmp_isSome (a b : F64) (ha : a ≠ .nan) (hb : b ≠ .nan) :
    (f64Pcmp a b).isSome = true := by
  rcases a with _ | s | qa
  · exact absurd rfl ha
  · rcases b with _ | t | qb
    · exact absurd rfl hb
    · cases s <;> cases t <;> simp [f64Pcmp]
    · cases s <;> simp [f64Pcmp]
  · rcases b with _ | t | qb
    · exact absurd rfl hb
    · cases t <;> simp [f64Pcmp]
    · simp [f64Pcmp]

/-- Totality of the derived comparison away from NaN: `partial_cmp`
returns a value, so `Ord::cmp`'s `.unwrap()` cannot panic. -/
theorem msitePcmp_total (a b : MSite) (ha : a.meth ≠ .nan)
    (hb : b.meth ≠ .nan) : (msitePcmp a b).isSome = true := by
  unfold msitePcmp
  cases h1 : cmpListC a.chrom b.chrom <;> simp only []
  case lt => rfl
  case gt => rfl
  case eq =>
    cases h2 : cmpNat a.pos b.pos <;> simp only []
    case lt => rfl
    case gt => rfl
    case eq =>
      cases h3 : cmpChar a.strand b.strand <;> simp only []
      case lt => rfl
      case gt => rfl
      case eq =>
        cases h4 : cmpListC a.context b.context <;> simp only []
        case lt => rfl
        case gt => rfl
        case eq =>
          obtain ⟨o, ho⟩ := Option.isSome_iff_exists.mp
            (f64Pcmp_isSome a.meth b.meth ha hb)
          rw [ho]
          cases o <;> rfl

/-- The source's missing-field message for the field at index `k`. -/
def missingMsg : ℕ → List Char
  | 0 => msgChrom
  | 1 => msgPos
  | 2 => msgStrand
  | 3 => msgContext
  | 4 => msgMeth
  | _ => msgNReads

/-- Every token that is present parses as its field and a present meth
is in range: the condition under which a short line reaches its first
`parts.next()` returning `None`. -/
def prefixOk : List (List Char) → Bool
  | [] => true
  | _ :: [] => true
  | _ :: p :: rest =>
    (parseU64 p).isSome &&
      (match rest with
      | [] => true
      | st :: rest =>
        (parseChar st).isSome &&
          (match rest with
          | [] => true
          | _ :: rest =>
            match rest with
            | [] => true
            | m :: rest =>
              match parseF64 m with
              | none => false
              | some mv =>
                !(f64Lt mv (.fin 0) || f64Lt (.fin 1) mv) &&
                  (match rest with
                  | [] => true
                  | n :: _ => (parseU64 n).isSome)))

theorem buildTokens_panic_pos (c p : List Char) (rest : List (List Char))
    (hp : parseU64 p = none) : buildTokens (c :: p :: rest) = .panicked := by
  simp [buildTokens, hp]

theorem buildTokens_panic_strand (c p st : List Char)
    (rest : List (List Char)) (pv : ℕ) (hp : parseU64 p = some pv)
    (hs : parseChar st = none) :
    buildTokens (c :: p :: st :: rest) = .panicked := by
  simp [buildTokens, hp, hs]

theorem buildTokens_panic_meth (c p st cx m : List Char)
    (rest : List (List Char)) (pv : ℕ) (sv : Char)
    (hp : parseU64 p = some pv) (hs : parseChar st = some sv)
    (hm : parseF64 m = none) :
    buildTokens (c :: p :: st :: cx :: m :: rest) = .panicked := by
  simp [buildTokens, hp, hs, hm]

theorem buildTokens_panic_nreads (c p st cx m n : List Char)
    (rest : List (List Char)) (pv : ℕ) (sv : Char) (mv : F64)
    (hp : parseU64 p = some pv) (hs : parseChar st = some sv)
    (hm : parseF64 m = some mv)
    (hr : (f64Lt mv (.fin 0) || f64Lt (.fin 1) mv) = false)
    (hn : parseU64 n = none) :
    buildTokens (c :: p :: st :: cx :: m :: n :: rest) = .panicked := by
  simp [buildTokens, hp, hs, hm, hr, hn]

theorem buildTokens_range_err (c p st cx m : List Char)
    (rest : List (List Char)) (pv : ℕ) (sv : Char) (mv : F64)
    (hp : parseU64 p = some pv) (hs : parseChar st = some sv)
    (hm : parseF64 m = some mv)
    (hr : (f64Lt mv (.fin 0) || f64Lt (.fin 1) mv) = true) :
    buildTokens (c :: p :: st :: cx :: m :: rest) = .err msgRange := by
  simp [buildTokens, hp, hs, hm, hr]

theorem buildTokens_missing (ts : List (List Char)) (hlen : ts.length < 6)
    (hok : prefixOk ts = true) :
    buildTokens ts = .err (missingMsg ts.length) := by
  rcases ts with _ | ⟨c, _ | ⟨p, _ | ⟨st, _ | ⟨cx, _ | ⟨m, _ | ⟨n, rest⟩⟩⟩⟩⟩⟩
  · rfl
  · rfl
  · simp only [prefixOk, Bool.and_eq_true] at hok
    obtain ⟨pv, hp⟩ := Option.isSome_iff_exists.mp hok.1
    simp [buildTokens, hp, missingMsg]
  · simp only [prefixOk, Bool.and_eq_true] at hok
    obtain ⟨pv, hp⟩ := Option.isSome_iff_exists.mp hok.1
    obtain ⟨sv, hs⟩ := Option.isSome_iff_exists.mp hok.2.1
    simp [buildTokens, hp, hs, missingMsg]
  · simp only [prefixOk, Bool.and_eq_true] at hok
    obtain ⟨pv, hp⟩ := Option.isSome_iff_exists.mp hok.1
    obtain ⟨sv, hs⟩ := Option.isSome_iff_exists.mp hok.2.1
    simp [buildTokens, hp, hs, missingMsg]
  · simp only [prefixOk, Bool.and_eq_true] at hok
    obtain ⟨pv, hp⟩ := Option.isSome_iff_exists.mp hok.1
    obtain ⟨sv, hs⟩ := Option.isSome_iff_exists.mp hok.2.1
    have hok2 := hok.2.2
    cases hm : parseF64 m with
    | none => rw [hm] at hok2; exact absurd hok2 (by simp)
    | some mv =>
      rw [hm] at hok2
      simp only [Bool.and_eq_true, Bool.not_eq_true'] at hok2
      simp [buildTokens, hp, hs, hm, hok2.1, missingMsg]
  · exfalso
    simp only [List.length_cons] at hlen
    omega

/-- The formatted line splits on tabs into exactly the six rendered
fields, provided the free-text fields carry no tab themselves. -/
theorem msiteDisplay_split (s : MSite) (h1 : ∀ c ∈ s.chrom, c ≠ '\t')
    (h2 : ∀ c ∈ s.context, c ≠ '\t') (h3 : s.strand ≠ '\t') :
    splitTab (msiteDisplay s) =
      [s.chrom, natRepr s.pos, [s.strand], s.context, dispMeth s.meth,
        natRepr s.n_reads] := by
  unfold msiteDisplay
  rw [splitTab_append _ _ h1, splitTab_append _ _ (natRepr_ne_tab _),
    splitTab_append _ _ (by
      intro c hc
      simp only [List.mem_singleton] at hc
      subst hc
      exact h3),
    splitTab_append _ _ h2, splitTab_append _ _ (dispMeth_ne_tab _),
    splitTab_no_tab _ (natRepr_ne_tab _)]

theorem dispMeth_zero : dispMeth (F64.fin (decQ 0 0 0)) = ("0").toList := by
  rw [dispMeth_fin,
    show decQ 0 0 0 * 1000000 = (((0 : ℤ)) : ℚ) from by rw [decQ_eq]; norm_num,
    rha_intCast]
  decide

theorem range_fail_12 :
    (f64Lt (F64.fin (decQ 1 2 1)) (F64.fin 0) ||
      f64Lt (F64.fin 1) (F64.fin (decQ 1 2 1))) = true := by
  have h : f64Lt (F64.fin 1) (F64.fin (decQ 1 2 1)) = true := by
    norm_num [f64Lt, decQ_eq]
  rw [h, Bool.or_true]

theorem range_ok_half :
    (f64Lt (F64.fin (decQ 0 50 2)) (F64.fin 0) ||
      f64Lt (F64.fin 1) (F64.fin (decQ 0 50 2))) = false := by
  have h1 : f64Lt (F64.fin (decQ 0 50 2)) (F64.fin 0) = false := by
    norm_num [f64Lt, decQ_eq]
  have h2 : f64Lt (F64.fin 1) (F64.fin (decQ 0 50 2)) = false := by
    norm_num [f64Lt, decQ_eq]
  rw [h1, h2, Bool.or_self]

example : natRepr 1000 = ("1000").toList := by decide

example : dispScaled 500000 = ("0.5").toList := by decide

example : dispScaled 0 = ("0").toList := by decide

example : dispScaled 1000000 = ("1").toList := by decide

example : dispScaled (-1) = ("-0.000001").toList := by decide

example : msiteDisplay ⟨("chr1").toList, 0, '+', ("CpG").toList,
    .fin (decQ 0 0 0), 0⟩ = ("chr1\t0\t+\tCpG\t0\t0").toList := by
  have h : dispMeth (F64.fin (decQ 0 0 0)) = dispScaled 0 := by
    rw [dispMeth_fin,
      show decQ 0 0 0 * 1000000 = (((0 : ℤ) : ℚ)) from by norm_num [decQ],
      rha_intCast]
  simp only [msiteDisplay, h]
  decide

/-! ## Claims -/

/-- C1 counterexample: on the line `chr1 -10 + CpG 0 0` the pos token
fails to parse as `u64`, and `MSite::build` panics (the `.unwrap()` on
the parse result aborts) instead of returning a recoverable error
value.  This input is pinned as `#[should_panic]` by the crate's own
test `build_with_invalid_position`, so the panic is the code's
behaviour, refuting the claim that all parse failures are returned to
the caller as recoverable `InvalidNumber`/`InvalidStrand` errors. -/
theorem C1_counterexample :
    build (("chr1 -10 + CpG 0 0").toList) = BRes.panicked := by decide

/-- C1 (amended): only missing fields and an out-of-range meth are
returned as recoverable error values; a pos, meth or n_reads token that
fails its numeric parse, or a strand token that is not exactly one
character, makes `MSite::build` panic (abort). -/
theorem C1_amended :
    (∀ (c p : List Char) (rest : List (List Char)), parseU64 p = none →
      buildTokens (c :: p :: rest) = .panicked) ∧
    (∀ (c p st : List Char) (rest : List (List Char)) (pv : ℕ),
      parseU64 p = some pv → parseChar st = none →
      buildTokens (c :: p :: st :: rest) = .panicked) ∧
    (∀ (c p st cx m : List Char) (rest : List (List Char)) (pv : ℕ)
      (sv : Char), parseU64 p = some pv → parseChar st = some sv →
      parseF64 m = none →
      buildTokens (c :: p :: st :: cx :: m :: rest) = .panicked) ∧
    (∀ (c p st cx m n : List Char) (rest : List (List Char)) (pv : ℕ)
      (sv : Char) (mv : F64), parseU64 p = some pv →
      parseChar st = some sv → parseF64 m = some mv →
      (f64Lt mv (.fin 0) || f64Lt (.fin 1) mv) = false →
      parseU64 n = none →
      buildTokens (c :: p :: st :: cx :: m :: n :: rest) = .panicked) ∧
    (∀ l : List Char, (splitWs l).length < 6 →
      prefixOk (splitWs l) = true →
      build l = .err (missingMsg (splitWs l).length)) :=
  ⟨buildTokens_panic_pos, buildTokens_panic_strand, buildTokens_panic_meth,
    buildTokens_panic_nreads,
    fun _ h1 h2 => buildTokens_missing _ h1 h2⟩

/-- C1 witness: the amended statement applied to the pos token `-10`
(panic) and to the five-token line `chr1 1 + CpG 0` (recoverable
missing-field error). -/
theorem C1_witness :
    parseU64 (("-10").toList) = none ∧
    buildTokens [("chr1").toList, ("-10").toList] = .panicked ∧
    build (("chr1 1 + CpG 0").toList) = .err msgNReads :=
  ⟨by decide,
    C1_amended.1 ("chr1").toList ("-10").toList [] (by decide),
    C1_amended.2.2.2.2 (("chr1 1 + CpG 0").toList) (by decide) (by decide)⟩

/-- C2 counterexample: `MSite::build` accepts the meth token `NaN`
(`f64` parses it, and `NaN < 0.0 || NaN > 1.0` is false, so the range
check passes), yielding a validly-constructed site with NaN meth; on
that site the derived `partial_cmp` returns `None`, so `Ord::cmp`'s
`.unwrap()` panics.  This refutes both halves of the claim. -/
theorem C2_counterexample :
    build (("chr1 0 + CpG NaN 0").toList) =
      .ok ⟨("chr1").toList, 0, '+', ("CpG").toList, .nan, 0⟩ ∧
    msitePcmp ⟨("chr1").toList, 0, '+', ("CpG").toList, .nan, 0⟩
      ⟨("chr1").toList, 0, '+', ("CpG").toList, .nan, 0⟩ = none := by
  constructor <;> decide

/-- C2 (amended): construction does not reject NaN meth, so ordering
can panic on built sites; the total ordering is infallible exactly on
pairs of sites whose meth values are not NaN (`partial_cmp` then always
returns a value, so `cmp`'s `.unwrap()` cannot panic). -/
theorem C2_amended (a b : MSite) (ha : a.meth ≠ .nan) (hb : b.meth ≠ .nan) :
    (msitePcmp a b).isSome = true :=
  msitePcmp_total a b ha hb

/-- C2 witness: two concrete NaN-free sites compare successfully. -/
theorem C2_witness :
    (F64.fin (decQ 0 0 0) ≠ F64.nan) ∧
    (msitePcmp ⟨("chr1").toList, 5, '+', ("CpG").toList,
        .fin (decQ 0 0 0), 3⟩
      ⟨("chr2").toList, 4, '-', ("CHH").toList,
        .fin (decQ 0 0 0), 7⟩).isSome = true :=
  ⟨by decide,
    C2_amended ⟨("chr1").toList, 5, '+', ("CpG").toList, .fin (decQ 0 0 0), 3⟩
      ⟨("chr2").toList, 4, '-', ("CHH").toList, .fin (decQ 0 0 0), 7⟩
      (by decide) (by decide)⟩

/-- C3 counterexample: the tab-separated line
`chr1<TAB>0<TAB>+<TAB>CpG<TAB>0.50<TAB>0` is well formed (six fields,
meth written with two decimal digits, which is at most six) and parses
successfully, but formatting the parsed site prints the meth value in
minimal form `0.5`, so `format(parse(line))` is not the original line:
the round-trip fails for meth fields carrying redundant trailing
zeros (likewise for non-canonical numerals such as pos `007`). -/
theorem C3_counterexample :
    ("chr1\t0\t+\tCpG\t0.50\t0").toList =
      joinSep '\t' [("chr1").toList, ("0").toList, ("+").toList,
        ("CpG").toList, ("0.50").toList, ("0").toList] ∧
    build (("chr1\t0\t+\tCpG\t0.50\t0").toList) =
      .ok ⟨("chr1").toList, 0, '+', ("CpG").toList, .fin (decQ 0 50 2), 0⟩ ∧
    msiteDisplay ⟨("chr1").toList, 0, '+', ("CpG").toList,
      .fin (decQ 0 50 2), 0⟩ ≠ ("chr1\t0\t+\tCpG\t0.50\t0").toList := by
  refine ⟨by decide, ?_, ?_⟩
  · have hs : splitWs (("chr1\t0\t+\tCpG\t0.50\t0").toList) =
        [("chr1").toList, ("0").toList, ("+").toList, ("CpG").toList,
          ("0.50").toList, ("0").toList] := by decide
    unfold build
    rw [hs]
    simp only [buildTokens,
      show parseU64 (("0").toList) = some 0 from by decide,
      show parseChar (("+").toList) = some '+' from by decide,
      show parseF64 (("0.50").toList) = some (.fin (decQ 0 50 2)) from rfl,
      range_ok_half, Bool.false_eq_true, if_false]
  · have hd : dispMeth (F64.fin (decQ 0 50 2)) = dispScaled 500000 := by
      rw [dispMeth_fin,
        show decQ 0 50 2 * 1000000 = (((500000 : ℤ)) : ℚ) from by
          rw [decQ_eq]; norm_num,
        rha_intCast]
    intro h
    simp only [msiteDisplay, hd] at h
    exact absurd h (by decide)

/-- C3 (amended): the round-trip `format(parse(line)) = line` holds for
every tab-separated six-field line whose numeric fields are written
exactly as the formatter renders their parsed values: pos and n_reads
as canonical decimal numerals, and meth as the minimal decimal
rendering of its 6-digit-quantized value (in particular any meth
already written in minimal form with at most 6 decimal digits). -/
theorem C3_amended (t1 t2 t3 t4 t5 t6 : List Char)
    (hts : ∀ t ∈ [t1, t2, t3, t4, t5, t6], WsFree t ∧ t ≠ [])
    (s : MSite)
    (hb : build (joinSep '\t' [t1, t2, t3, t4, t5, t6]) = .ok s)
    (hpos : natRepr s.pos = t2)
    (hmeth : dispMeth s.meth = t5)
    (hn : natRepr s.n_reads = t6) :
    msiteDisplay s = joinSep '\t' [t1, t2, t3, t4, t5, t6] := by
  have hsplit : splitWs (joinSep '\t' [t1, t2, t3, t4, t5, t6]) =
      [t1, t2, t3, t4, t5, t6] :=
    splitWs_joinSep '\t' (by decide) _ hts
  unfold build at hb
  rw [hsplit] at hb
  obtain ⟨hchrom, _, hstr, hctx, _, _⟩ :=
    buildTokens_ok_fields t1 t2 t3 t4 t5 t6 [] s hb
  unfold msiteDisplay
  rw [hchrom, hpos, ← hstr, hctx, hmeth, hn]
  rfl

/-- C3 witness: the spec's own example line round-trips. -/
theorem C3_witness :
    build (joinSep '\t' [("chr1").toList, ("0").toList, ("+").toList,
      ("CpG").toList, ("0").toList, ("0").toList]) =
      .ok ⟨("chr1").toList, 0, '+', ("CpG").toList, .fin (decQ 0 0 0), 0⟩ ∧
    msiteDisplay ⟨("chr1").toList, 0, '+', ("CpG").toList,
      .fin (decQ 0 0 0), 0⟩ =
      joinSep '\t' [("chr1").toList, ("0").toList, ("+").toList,
        ("CpG").toList, ("0").toList, ("0").toList] :=
  ⟨by decide,
    C3_amended ("chr1").toList ("0").toList ("+").toList ("CpG").toList
      ("0").toList ("0").toList (by decide)
      ⟨("chr1").toList, 0, '+', ("CpG").toList, .fin (decQ 0 0 0), 0⟩
      (by decide) (by decide) dispMeth_zero (by decide)⟩

/-- C4 counterexample: `self.n_reads += other.n_reads` is a `u64`
addition, so at the type's upper end the stored `n_reads` is the sum
reduced modulo `2^64` (release builds wrap; debug builds panic, so the
claim's "never fails / equals the sum" conjunction fails either way):
merging a site with `n_reads = 2^64 - 1` and one with `n_reads = 1`
does not leave the mathematical sum `2^64` in `n_reads`. -/
theorem C4_counterexample :
    (msiteAdd
        ⟨[], 0, '+', [], .fin (decQ 0 0 0), 18446744073709551615⟩
        ⟨[], 0, '+', [], .fin (decQ 0 0 0), 1⟩).n_reads ≠
      (⟨[], 0, '+', [], .fin (decQ 0 0 0),
        18446744073709551615⟩ : MSite).n_reads +
        (⟨[], 0, '+', [], .fin (decQ 0 0 0), 1⟩ : MSite).n_reads := by
  decide

/-- C4 (amended): after `A.add(B)`, `A.context` gains a trailing
sentinel `x` iff `A` was not mutated and `B` was mutated; `A.n_reads`
is the sum of the two pre-call `n_reads` modulo `2^64` (equal to the
true sum whenever it fits in 64 bits); `A.meth` is the (wrapped) sum of
the pre-call `n_meth()` values divided by `max(1, new n_reads)`, so two
zero-read operands yield meth `0.0` rather than a division fault; `B`
is unmodified (the model is functional in `b`) and the operation never
fails in the wrapping semantics. -/
theorem C4_amended (a b : MSite) :
    ((msiteAdd a b).context = a.context ++ ['x'] ↔
      (isMutated a = false ∧ isMutated b = true)) ∧
    (msiteAdd a b).n_reads = (a.n_reads + b.n_reads) % U64MOD ∧
    (msiteAdd a b).meth =
      .fin ((((n_meth a + n_meth b) % U64MOD : ℕ) : ℚ) /
        (((max 1 ((a.n_reads + b.n_reads) % U64MOD) : ℕ)) : ℚ)) ∧
    (a.n_reads + b.n_reads < U64MOD →
      (msiteAdd a b).n_reads = a.n_reads + b.n_reads) ∧
    (a.n_reads = 0 → b.n_reads = 0 → (msiteAdd a b).meth = .fin 0) := by
  refine ⟨?_, rfl, rfl, ?_, ?_⟩
  · by_cases hcond : (!isMutated a && isMutated b) = true
    · have hctx : (msiteAdd a b).context = a.context ++ ['x'] := by
        simp [msiteAdd, hcond]
      simp only [Bool.and_eq_true, Bool.not_eq_true'] at hcond
      simp [hctx, hcond]
    · have hctx : (msiteAdd a b).context = a.context := by
        simp [msiteAdd, hcond]
      rw [hctx]
      constructor
      · intro h
        exact absurd h (by simp)
      · intro h
        exact absurd (by simp [h.1, h.2] : (!isMutated a && isMutated b) = true)
          hcond
  · intro h
    show (a.n_reads + b.n_reads) % U64MOD = a.n_reads + b.n_reads
    exact Nat.mod_eq_of_lt h
  · intro ha hb
    have hma := n_meth_zero a ha
    have hmb := n_meth_zero b hb
    show F64.fin ((((n_meth a + n_meth b) % U64MOD : ℕ) : ℚ) /
      (((max 1 ((a.n_reads + b.n_reads) % U64MOD) : ℕ)) : ℚ)) = .fin 0
    rw [hma, hmb, ha, hb]
    norm_num

/-- C4 witness: the spec's worked example, ten reads at meth 0 merged
with ten reads at meth 0. -/
theorem C4_witness :
    ((⟨[], 0, '+', [], .fin (decQ 0 0 0), 10⟩ : MSite).n_reads +
      (⟨[], 0, '+', [], .fin (decQ 0 0 0), 10⟩ : MSite).n_reads < U64MOD) ∧
    (msiteAdd ⟨[], 0, '+', [], .fin (decQ 0 0 0), 10⟩
      ⟨[], 0, '+', [], .fin (decQ 0 0 0), 10⟩).n_reads =
      (⟨[], 0, '+', [], .fin (decQ 0 0 0), 10⟩ : MSite).n_reads +
        (⟨[], 0, '+', [], .fin (decQ 0 0 0), 10⟩ : MSite).n_reads :=
  ⟨by decide,
    (C4_amended ⟨[], 0, '+', [], .fin (decQ 0 0 0), 10⟩
      ⟨[], 0, '+', [], .fin (decQ 0 0 0), 10⟩).2.2.2.1 (by decide)⟩

/-- C5 counterexample: `(self.n_reads as f64)` rounds to the nearest
binary64 value, so the claim fails above `2^53`.  The line
`chr1 0 + CpG 1 18014398509481987` builds a valid site with meth 1.0
and `n_reads = 2^54 + 3`; the cast rounds that count up to `2^54 + 4`
(distance 1 versus 3 to the neighbouring representable values), so
`n_meth()` is `n_reads + 1 > n_reads`, and `n_umeth()`'s `u64`
subtraction underflows instead of satisfying
`n_umeth() + n_meth() = n_reads`. -/
theorem C5_counterexample :
    build (("chr1 0 + CpG 1 18014398509481987").toList) =
      .ok ⟨("chr1").toList, 0, '+', ("CpG").toList, .fin (decQ 1 0 0),
        18014398509481987⟩ ∧
    n_meth ⟨("chr1").toList, 0, '+', ("CpG").toList, .fin (decQ 1 0 0),
      18014398509481987⟩ = 18014398509481988 ∧
    ¬ (n_meth ⟨("chr1").toList, 0, '+', ("CpG").toList, .fin (decQ 1 0 0),
      18014398509481987⟩ ≤
      (⟨("chr1").toList, 0, '+', ("CpG").toList, .fin (decQ 1 0 0),
        18014398509481987⟩ : MSite).n_reads) := by
  have hval : n_meth ⟨("chr1").toList, 0, '+', ("CpG").toList,
      .fin (decQ 1 0 0), 18014398509481987⟩ = 18014398509481988 := by
    show castU64 (roundF (f64Mul
      (.fin ((rne53 18014398509481987 : ℕ) : ℚ)) (.fin (decQ 1 0 0)))) =
      18014398509481988
    rw [show (rne53 18014398509481987 : ℕ) = 18014398509481988 from by
        decide,
      show f64Mul (.fin ((18014398509481988 : ℕ) : ℚ))
          (.fin (decQ 1 0 0)) = .fin ((18014398509481988 : ℕ) : ℚ) from by
        simp [f64Mul, decQ]]
    simp only [roundF]
    rw [rha_natCast]
    norm_num [castU64, U64MOD, Int.floor_intCast]
    decide
  refine ⟨by decide, hval, ?_⟩
  rw [hval]
  decide

/-- C5 (amended): for a validly-constructed site with finite meth in
`[0, 1]` and `n_reads` at most `2^53` — the range where the `u64` to
`f64` conversion is exact — `n_meth()` is the round-half-away-from-zero
rounding of `n_reads * meth` (cast back to `u64`), it never exceeds
`n_reads`, and `n_umeth() + n_meth() = n_reads`.  (`f64::round` rounds
half away from zero.) -/
theorem C5_nmeth (s : MSite) (q : ℚ) (hq : s.meth = .fin q) (h0 : 0 ≤ q)
    (h1 : q ≤ 1) (hn : s.n_reads ≤ 2 ^ 53) :
    n_meth s = (rha ((s.n_reads : ℚ) * q)).toNat ∧
    n_meth s ≤ s.n_reads ∧
    n_umeth s + n_meth s = s.n_reads := by
  obtain ⟨he, hle⟩ := n_meth_fin s q hq h0 h1 hn
  exact ⟨he, hle, n_umeth_add s hle (lt_of_le_of_lt hn (by norm_num [U64MOD]))⟩

/-- C5 witness: a ten-read site at meth 0. -/
theorem C5_witness :
    (0 ≤ decQ 0 0 0 ∧ decQ 0 0 0 ≤ 1 ∧
      (⟨[], 0, '+', [], .fin (decQ 0 0 0), 10⟩ : MSite).n_reads ≤ 2 ^ 53) ∧
    (n_meth ⟨[], 0, '+', [], .fin (decQ 0 0 0), 10⟩ =
      (rha (((⟨[], 0, '+', [], .fin (decQ 0 0 0), 10⟩ : MSite).n_reads : ℚ) *
        decQ 0 0 0)).toNat ∧
    n_meth ⟨[], 0, '+', [], .fin (decQ 0 0 0), 10⟩ ≤
      (⟨[], 0, '+', [], .fin (decQ 0 0 0), 10⟩ : MSite).n_reads ∧
    n_umeth ⟨[], 0, '+', [], .fin (decQ 0 0 0), 10⟩ +
      n_meth ⟨[], 0, '+', [], .fin (decQ 0 0 0), 10⟩ =
      (⟨[], 0, '+', [], .fin (decQ 0 0 0), 10⟩ : MSite).n_reads) :=
  ⟨⟨by decide, by decide, by decide⟩,
    C5_nmeth ⟨[], 0, '+', [], .fin (decQ 0 0 0), 10⟩ (decQ 0 0 0) rfl
      (by decide) (by decide) (by decide)⟩

/-- C6: when the first five tokens parse (chrom, a `u64` pos, a
one-character strand, a context) and the parsed meth value is strictly
below 0.0 or strictly above 1.0, `MSite::build` fails with the
out-of-range error (`methylation level not in range`), whatever follows
the meth token: the range check sits between the meth parse and the
n_reads parse, so an absent or malformed n_reads token is never
reached. -/
theorem C6_range (l : List Char) (c ptok stok cxtok mtok : List Char)
    (rest : List (List Char)) (pv : ℕ) (sv : Char) (mv : F64)
    (hsp : splitWs l = c :: ptok :: stok :: cxtok :: mtok :: rest)
    (hp : parseU64 ptok = some pv) (hs : parseChar stok = some sv)
    (hm : parseF64 mtok = some mv)
    (hr : (f64Lt mv (.fin 0) || f64Lt (.fin 1) mv) = true) :
    build l = .err msgRange := by
  unfold build
  rw [hsp]
  exact buildTokens_range_err c ptok stok cxtok mtok rest pv sv mv hp hs hm hr

/-- C6 witness: the line `chr1 0 + CpG 1.2` with meth 1.2 and the
n_reads token absent still reports the out-of-range error. -/
theorem C6_witness :
    splitWs (("chr1 0 + CpG 1.2").toList) =
      [("chr1").toList, ("0").toList, ("+").toList, ("CpG").toList,
        ("1.2").toList] ∧
    build (("chr1 0 + CpG 1.2").toList) = .err msgRange :=
  ⟨by decide,
    C6_range (("chr1 0 + CpG 1.2").toList) ("chr1").toList ("0").toList
      ("+").toList ("CpG").toList ("1.2").toList [] 0 '+'
      (.fin (decQ 1 2 1)) (by decide) (by decide) (by decide) rfl
      range_fail_12⟩

/-- C7: formatting produces the six fields chrom, pos, strand, context,
meth, n_reads joined by single tabs with no trailing separator
(splitting the output on tabs recovers exactly the six rendered
fields, given tab-free text fields); the meth field renders the value
quantized by multiplying by 10^6, rounding half away from zero and
dividing back down — parsing the rendered meth field recovers exactly
that quantized value — and the rendering is minimal: when it contains a
decimal point it ends in neither `0` nor `.` (and integral values
render with no point at all). -/
theorem C7_format (s : MSite) (h1 : ∀ c ∈ s.chrom, c ≠ '\t')
    (h2 : ∀ c ∈ s.context, c ≠ '\t') (h3 : s.strand ≠ '\t') :
    splitTab (msiteDisplay s) =
      [s.chrom, natRepr s.pos, [s.strand], s.context, dispMeth s.meth,
        natRepr s.n_reads] ∧
    (∀ q : ℚ, s.meth = .fin q →
      dispMeth s.meth = dispScaled (rha (q * 1000000)) ∧
      parseF64 (dispMeth s.meth) =
        some (.fin (((rha (q * 1000000) : ℤ) : ℚ) / 1000000))) ∧
    ('.' ∈ dispMeth s.meth →
      (dispMeth s.meth).getLast? ≠ some '0' ∧
        (dispMeth s.meth).getLast? ≠ some '.') := by
  refine ⟨msiteDisplay_split s h1 h2 h3, ?_, ?_⟩
  · intro q hq
    rw [hq, dispMeth_fin]
    exact ⟨rfl, parseF64_dispScaled _⟩
  · intro hdot
    rcases dispMeth_cases s.meth with h | h | h | ⟨z, h⟩ <;> rw [h] at hdot ⊢
    · exact absurd hdot (by decide)
    · exact absurd hdot (by decide)
    · exact absurd hdot (by decide)
    · exact dispScaled_minimal z hdot

/-- C7 witness: the six-field split for a concrete site. -/
theorem C7_witness :
    splitTab (msiteDisplay ⟨("chr1").toList, 1000, '+', ("CpG").toList,
        .fin (decQ 0 0 0), 3⟩) =
      [("chr1").toList, natRepr 1000, ['+'], ("CpG").toList,
        dispMeth (F64.fin (decQ 0 0 0)), natRepr 3] :=
  (C7_format ⟨("chr1").toList, 1000, '+', ("CpG").toList,
    .fin (decQ 0 0 0), 3⟩ (by decide) (by decide) (by decide)).1

/-- C8 counterexample: the line `chr1 0 + CpG 5` has five tokens, yet
`MSite::build` fails with the out-of-range error (`methylation level
not in range`), not with any missing-field error: the meth token `5`
parses and is rejected by the range check before the sixth field is
found missing.  (With an unparseable earlier token, e.g. `a b`, a short
line even panics.)  So fewer than six tokens does not always produce a
missing-field error. -/
theorem C8_counterexample :
    (splitWs (("chr1 0 + CpG 5").toList)).length = 5 ∧
    build (("chr1 0 + CpG 5").toList) = .err msgRange ∧
    msgRange ∉ [msgChrom, msgPos, msgStrand, msgContext, msgMeth,
      msgNReads] := by
  refine ⟨by decide, by decide, by decide⟩

/-- C8 (amended): whenever the line has fewer than six
whitespace-separated tokens and every token that is present passes its
own parse step (pos/n_reads as `u64`, strand as a single character,
meth as an in-range `f64`), `MSite::build` returns the missing-field
error named after the first absent field — the field checks are
performed incrementally in declaration order. -/
theorem C8_missing (l : List Char) (hlen : (splitWs l).length < 6)
    (hok : prefixOk (splitWs l) = true) :
    build l = .err (missingMsg (splitWs l).length) :=
  buildTokens_missing (splitWs l) hlen hok

/-- C8 witness: the spec's example `chr1 1 + CpG 0` (five valid tokens)
reports the n_reads field missing. -/
theorem C8_witness :
    (splitWs (("chr1 1 + CpG 0").toList)).length < 6 ∧
    prefixOk (splitWs (("chr1 1 + CpG 0").toList)) = true ∧
    build (("chr1 1 + CpG 0").toList) =
      .err (missingMsg (splitWs (("chr1 1 + CpG 0").toList)).length) :=
  ⟨by decide, by decide,
    C8_missing (("chr1 1 + CpG 0").toList) (by decide) (by decide)⟩

/-- C9 counterexample: `is_mate_of` computes `self.pos + 1` in `u64`,
which wraps at `2^64` (and panics in a debug build), so for a plus
strand CpG site at pos `2^64 - 1` and a minus strand CpG site at pos
`0` the code returns true although `other.pos` is not the mathematical
`self.pos + 1 = 2^64`. -/
theorem C9_counterexample :
    isMateOf
      ⟨[], 18446744073709551615, '+', ("CpG").toList, .fin (decQ 0 0 0), 0⟩
      ⟨[], 0, '-', ("CpG").toList, .fin (decQ 0 0 0), 0⟩ = true ∧
    (⟨[], 0, '-', ("CpG").toList, .fin (decQ 0 0 0), 0⟩ : MSite).pos ≠
      (⟨[], 18446744073709551615, '+', ("CpG").toList, .fin (decQ 0 0 0),
        0⟩ : MSite).pos + 1 := by
  constructor <;> decide

/-- C9 (amended): `is_mate_of(self, other)` is true iff `other.pos`
equals `self.pos + 1` computed modulo `2^64`, both sites are CpG,
`self.strand` is `+` and `other.strand` is `-`; whenever `self.pos + 1`
does not overflow (every position except `2^64 - 1`), this is exactly
the claimed condition `other.pos == self.pos + 1`. -/
theorem C9_mate (a b : MSite) :
    (isMateOf a b = true ↔
      (b.pos = (a.pos + 1) % U64MOD ∧ isCpg a = true ∧ isCpg b = true ∧
        a.strand = '+' ∧ b.strand = '-')) ∧
    (a.pos + 1 < U64MOD →
      (isMateOf a b = true ↔
        (b.pos = a.pos + 1 ∧ isCpg a = true ∧ isCpg b = true ∧
          a.strand = '+' ∧ b.strand = '-'))) := by
  have main : isMateOf a b = true ↔
      (b.pos = (a.pos + 1) % U64MOD ∧ isCpg a = true ∧ isCpg b = true ∧
        a.strand = '+' ∧ b.strand = '-') := by
    unfold isMateOf
    simp only [Bool.and_eq_true, beq_iff_eq]
    constructor
    · rintro ⟨⟨h1, h2, h3⟩, h4, h5⟩
      exact ⟨h1.symm, h2, h3, h4, h5⟩
    · rintro ⟨h1, h2, h3, h4, h5⟩
      exact ⟨⟨h1.symm, h2, h3⟩, h4, h5⟩
  refine ⟨main, fun h => ?_⟩
  rw [show a.pos + 1 = (a.pos + 1) % U64MOD from (Nat.mod_eq_of_lt h).symm]
  exact main

/-- C9 witness: the spec's example pair at positions 100 and 101. -/
theorem C9_witness :
    ((⟨[], 100, '+', ("CpG").toList, .fin (decQ 0 0 0), 0⟩ : MSite).pos + 1 <
      U64MOD) ∧
    isMateOf ⟨[], 100, '+', ("CpG").toList, .fin (decQ 0 0 0), 0⟩
      ⟨[], 101, '-', ("CpG").toList, .fin (decQ 0 0 0), 0⟩ = true :=
  ⟨by decide,
    ((C9_mate ⟨[], 100, '+', ("CpG").toList, .fin (decQ 0 0 0), 0⟩
      ⟨[], 101, '-', ("CpG").toList, .fin (decQ 0 0 0), 0⟩).2
      (by decide)).mpr (by decide)⟩

/-- C10: `MSite::build` reads at most six tokens from its iterator, so
any line parses exactly as the line truncated to its first six
whitespace-separated tokens does — in particular a line with more than
six tokens whose first six form a valid record parses successfully to
the same site. -/
theorem C10_truncate (l : List Char) :
    build (joinSep '\t' ((splitWs l).take 6)) = build l := by
  unfold build
  rw [splitWs_joinSep '\t' (by decide) _
    (fun t ht => splitWs_tokens l t (List.take_subset _ _ ht))]
  exact buildTokens_take6 _

example : build (("chr1 0 + CpG 0 0 extra junk").toList) =
    .ok ⟨("chr1").toList, 0, '+', ("CpG").toList, .fin (decQ 0 0 0), 0⟩ := by
  decide
